import Mathlib

/-!
Verification development for the bank consistency harness
(`examples/bank/bank.go`): a shallow embedding of the ledger model
(account identifiers, JSON record encode/decode), the key-value store
operations the harness issues, the transfer attempt loop body, the
balance-summing scan and the periodic invariant check, together with
theorems settling the specified properties.

Bytes are modelled as `List Char` (all data involved is ASCII, one
byte per character, compared by code point exactly as Go compares
bytes). Machine integers are modelled as `Int`/`Nat`; no operation of
the harness is overflow-sensitive on the inputs the claims concern.
-/

/-- ASCII character of a decimal digit `d` (code point `48 + d`). -/
def digitChar (d : Nat) : Char := Char.ofNat (48 + d)

/-- Decimal-digit test on a character (ASCII code points 48..57). -/
def isDigitChar (c : Char) : Bool := 48 ≤ c.toNat && c.toNat ≤ 57

/-- Numeric value of a decimal digit character. -/
def digitVal (c : Char) : Nat := c.toNat - 48

/-- Fuel-indexed helper producing the decimal digits of `n`, most
significant digit first, mirroring Go's integer formatting. -/
def natDigitsAux : Nat → Nat → List Char
  | 0, _ => []
  | fuel + 1, n =>
    if n < 10 then [digitChar n]
    else natDigitsAux fuel (n / 10) ++ [digitChar (n % 10)]

/-- Decimal digits of a natural number, most significant first, with no
leading zeros (and the single digit `0` for zero), as produced by Go's
`strconv`-based integer formatting. -/
def natDigits (n : Nat) : List Char := natDigitsAux (n + 1) n

/-- Numeric value of a digit string read left to right, from an
accumulator. -/
def digitsValAux (acc : Nat) : List Char → Nat
  | [] => acc
  | c :: l => digitsValAux (acc * 10 + digitVal c) l

/-- Numeric value of a digit string read left to right. -/
def digitsVal (l : List Char) : Nat := digitsValAux 0 l

/-- Left-pad a character list with zeros up to width `w`, as Go's
format verb with a zero flag and width does for non-negative integers. -/
def padZeros (w : Nat) (l : List Char) : List Char :=
  List.replicate (w - l.length) '0' ++ l

/-- Account identifier for index `id`: the nine-wide zero-padded
decimal representation, from `makeAccountID` in `bank.go`
(`fmt.Sprintf` with the zero-padded width-9 decimal verb). -/
def makeAccountID (id : Nat) : List Char := padZeros 9 (natDigits id)

/-- Byte-wise strict comparison of two byte strings, exactly Go's
`bytes.Compare` being negative: shorter common-prefix string first,
otherwise first differing byte decides. -/
def bytesLt : List Char → List Char → Bool
  | [], [] => false
  | [], _ :: _ => true
  | _ :: _, [] => false
  | a :: as, b :: bs =>
    if a.toNat < b.toNat then true
    else if b.toNat < a.toNat then false
    else bytesLt as bs

/-- Left curly bracket character (ASCII 123). -/
def lbrace : Char := Char.ofNat 123

/-- Right curly bracket character (ASCII 125). -/
def rbrace : Char := Char.ofNat 125

/-- Double-quote character (ASCII 34). -/
def quoteChar : Char := Char.ofNat 34

/-- Error taxonomy of the harness. The Go program reports each of these
through `log.Fatal`; the constructors carry the data the corresponding
fatal report prints (row counts for an incomplete scan, the observed
total for an invariant violation). -/
inductive Err where
  | MalformedRecord : Err
  | IncompleteScan : Nat → Nat → Err
  | InvariantViolation : Int → Err
  deriving DecidableEq

/-- Account record of the ledger: a single signed 64-bit balance
(struct `Account` in bank.go, field `Balance int64`). -/
structure Account where
  Balance : Int
  deriving DecidableEq

/-- Decimal representation of a signed integer: minus sign followed by
the digits of the absolute value for negatives, plain digits otherwise,
as Go's `strconv`-based formatting used by `encoding/json` produces. -/
def intRepr (n : Int) : List Char :=
  if n < 0 then '-' :: natDigits n.natAbs else natDigits n.toNat

/-- Characters of the JSON key under which the balance is serialized. -/
def balanceKey : List Char := "Balance".data

/-- Serialization of an account record (`Account.encode` in bank.go,
backed by `json.Marshal`): the JSON object with the single key
`Balance` mapped to the decimal balance, no whitespace. `json.Marshal`
cannot fail on this struct type, so the encoding is total. -/
def Account.encode (a : Account) : List Char :=
  [lbrace, quoteChar] ++ balanceKey ++ [quoteChar, ':'] ++ intRepr a.Balance ++ [rbrace]

/-- Whitespace test for the characters JSON treats as insignificant. -/
def isWsChar (c : Char) : Bool := c = ' ' || c = '\t' || c = '\n' || c = '\r'

/-- Drop leading JSON whitespace. -/
def skipWs : List Char → List Char
  | [] => []
  | c :: cs => if isWsChar c then skipWs cs else c :: cs

/-- Greedily consume decimal digits, returning the accumulated value
and the unconsumed remainder. -/
def parseDigitsAux (acc : Nat) : List Char → Nat × List Char
  | [] => (acc, [])
  | c :: cs => if isDigitChar c then parseDigitsAux (acc * 10 + digitVal c) cs else (acc, c :: cs)

/-- Parse an optional exponent part after the integer (and fraction)
digits of a JSON number. When an exponent is present and well-formed
the number is not an integer literal, so no integer value is reported;
when no exponent follows, the integer value is reported exactly when
the number had no fraction part (`isInt`). A malformed exponent makes
the number — and hence the enclosing document — invalid. -/
def parseExpOpt (isInt : Bool) (n : Int) (rest : List Char) :
    Option (Option Int × List Char) :=
  match rest with
  | e :: cs =>
    if e = 'e' ∨ e = 'E' then
      match cs with
      | c2 :: cs2 =>
        if c2 = '+' ∨ c2 = '-' then
          match cs2 with
          | c3 :: _ =>
            if isDigitChar c3 then some (none, (parseDigitsAux 0 cs2).2) else none
          | [] => none
        else if isDigitChar c2 then some (none, (parseDigitsAux 0 cs).2)
        else none
      | [] => none
    else some (if isInt then some n else none, e :: cs)
  | [] => some (if isInt then some n else none, [])

/-- Parse an optional fraction part after the integer digits of a JSON
number, then the optional exponent. A number with a fraction part is
not an integer literal; a dot without a following digit is invalid. -/
def parseFracExp (n : Int) (rest : List Char) : Option (Option Int × List Char) :=
  match rest with
  | '.' :: cs =>
    match cs with
    | c :: _ =>
      if isDigitChar c then parseExpOpt false n (parseDigitsAux 0 cs).2 else none
    | [] => none
  | other => parseExpOpt true n other

/-- Parse a JSON number (optional minus sign, digits, optional
fraction and exponent), returning the remainder and its integer value
when the number is an integer literal — the only number form
`json.Unmarshal` accepts for an `int64` field, fraction and exponent
forms failing `strconv.ParseInt`. `none` when the input does not start
with a number. -/
def parseNumberTok : List Char → Option (Option Int × List Char)
  | [] => none
  | c :: cs =>
    if c = '-' then
      match cs with
      | c2 :: _ =>
        if isDigitChar c2 then
          match parseDigitsAux 0 cs with
          | (n, rest) => parseFracExp (-(n : Int)) rest
        else none
      | [] => none
    else if isDigitChar c then
      match parseDigitsAux 0 (c :: cs) with
      | (n, rest) => parseFracExp ((n : Int)) rest
    else none

/-- Value of a hexadecimal digit character, either case. -/
def hexDigitVal (c : Char) : Option Nat :=
  if 48 ≤ c.toNat && c.toNat ≤ 57 then some (c.toNat - 48)
  else if 97 ≤ c.toNat && c.toNat ≤ 102 then some (c.toNat - 87)
  else if 65 ≤ c.toNat && c.toNat ≤ 70 then some (c.toNat - 55)
  else none

/-- Character denoted by a single-character JSON escape sequence;
`none` for an invalid escape, which makes the document invalid. -/
def escChar (c : Char) : Option Char :=
  if c = quoteChar then some quoteChar
  else if c = '\\' then some '\\'
  else if c = '/' then some '/'
  else if c = 'b' then some (Char.ofNat 8)
  else if c = 'f' then some (Char.ofNat 12)
  else if c = 'n' then some (Char.ofNat 10)
  else if c = 'r' then some (Char.ofNat 13)
  else if c = 't' then some (Char.ofNat 9)
  else none

/-- Parse the contents of a JSON string after its opening quote, up to
the closing quote, unescaping as Go's decoder does: the single-letter
escapes and the four-hex-digit escape are resolved, a surrogate pair
of hex escapes combines into one supplementary character, an unpaired
surrogate becomes the replacement character, an invalid escape or an
unescaped control character makes the string invalid. The fuel bounds
the recursion; each step consumes at least one input character, so any
fuel beyond the input length is enough. -/
def parseStringChars : Nat → List Char → Option (List Char × List Char)
  | 0, _ => none
  | _, [] => none
  | fuel + 1, c :: cs =>
    if c = quoteChar then some ([], cs)
    else if c = '\\' then
      match cs with
      | [] => none
      | e :: cs2 =>
        if e = 'u' then
          match cs2 with
          | h1 :: h2 :: h3 :: h4 :: cs3 =>
            match hexDigitVal h1, hexDigitVal h2, hexDigitVal h3, hexDigitVal h4 with
            | some d1, some d2, some d3, some d4 =>
              let n : Nat := ((d1 * 16 + d2) * 16 + d3) * 16 + d4
              if 0xD800 ≤ n ∧ n < 0xDC00 then
                match cs3 with
                | '\\' :: 'u' :: g1 :: g2 :: g3 :: g4 :: cs4 =>
                  match hexDigitVal g1, hexDigitVal g2, hexDigitVal g3, hexDigitVal g4 with
                  | some e1, some e2, some e3, some e4 =>
                    let m : Nat := ((e1 * 16 + e2) * 16 + e3) * 16 + e4
                    if 0xDC00 ≤ m ∧ m < 0xE000 then
                      match parseStringChars fuel cs4 with
                      | some (k, rest) =>
                        some (Char.ofNat
                          (0x10000 + (n - 0xD800) * 0x400 + (m - 0xDC00)) :: k, rest)
                      | none => none
                    else
                      match parseStringChars fuel cs3 with
                      | some (k, rest) => some (Char.ofNat 0xFFFD :: k, rest)
                      | none => none
                  | _, _, _, _ =>
                    match parseStringChars fuel cs3 with
                    | some (k, rest) => some (Char.ofNat 0xFFFD :: k, rest)
                    | none => none
                | _ =>
                  match parseStringChars fuel cs3 with
                  | some (k, rest) => some (Char.ofNat 0xFFFD :: k, rest)
                  | none => none
              else if 0xDC00 ≤ n ∧ n < 0xE000 then
                match parseStringChars fuel cs3 with
                | some (k, rest) => some (Char.ofNat 0xFFFD :: k, rest)
                | none => none
              else
                match parseStringChars fuel cs3 with
                | some (k, rest) => some (Char.ofNat n :: k, rest)
                | none => none
            | _, _, _, _ => none
          | _ => none
        else
          match escChar e with
          | some ec =>
            match parseStringChars fuel cs2 with
            | some (k, rest) => some (ec :: k, rest)
            | none => none
          | none => none
    else if c.toNat < 32 then none
    else
      match parseStringChars fuel cs with
      | some (k, rest) => some (c :: k, rest)
      | none => none

/-- Classification of a member value as the decoder needs it: an
integer literal with its value (the only form that can set the balance
field), a null literal (which `json.Unmarshal` treats as a no-op,
leaving the field as it was), or any other well-formed JSON value
(string, boolean, non-integer number, array or object — fatal for the
balance field, skipped for an unknown field). -/
inductive JsonValKind where
  | intVal : Int → JsonValKind
  | nullVal : JsonValKind
  | otherVal : JsonValKind
  deriving DecidableEq

/-- Lower-case an ASCII capital letter, the identity on anything else. -/
def asciiFold (c : Char) : Char :=
  if 65 ≤ c.toNat && c.toNat ≤ 90 then Char.ofNat (c.toNat + 32) else c

/-- Case-insensitive match of an object key against the balance field
name, as `json.Unmarshal` matches member keys against struct field
names (for the letters of this field name, ASCII folding coincides
with the Unicode folding Go applies). -/
def keyMatchesBalance (k : List Char) : Bool :=
  decide (k.map asciiFold = balanceKey.map asciiFold)

/-- Position of the generic JSON skipper: at a value, inside the item
list of an array, or inside the member list of an object (the flag
records whether a closing bracket may come next, which is the case
only before the first element). -/
inductive SkipMode where
  | value : SkipMode
  | arrayItems : Bool → SkipMode
  | objectMembers : Bool → SkipMode

/-- Skip one well-formed JSON value of any form, as `json.Unmarshal`
does for an object member that matches no struct field, returning the
remainder; `none` on malformed input. The fuel bounds the recursion
through nested arrays and objects; every nesting level consumes at
least one input character, so twice the input length is ample. -/
def skipJson : Nat → SkipMode → List Char → Option (List Char)
  | 0, _, _ => none
  | fuel + 1, mode, s =>
    match mode, s with
    | _, [] => none
    | .value, c :: cs =>
      if c = quoteChar then
        match parseStringChars (cs.length + 1) cs with
        | some (_, rest) => some rest
        | none => none
      else if c = 't' then
        match cs with
        | 'r' :: 'u' :: 'e' :: rest => some rest
        | _ => none
      else if c = 'f' then
        match cs with
        | 'a' :: 'l' :: 's' :: 'e' :: rest => some rest
        | _ => none
      else if c = 'n' then
        match cs with
        | 'u' :: 'l' :: 'l' :: rest => some rest
        | _ => none
      else if c = '[' then skipJson fuel (.arrayItems true) (skipWs cs)
      else if c = lbrace then skipJson fuel (.objectMembers true) (skipWs cs)
      else
        match parseNumberTok (c :: cs) with
        | some (_, rest) => some rest
        | none => none
    | .arrayItems allowClose, c :: cs =>
      if allowClose && c = ']' then some cs
      else
        match skipJson fuel .value (c :: cs) with
        | none => none
        | some rest =>
          match skipWs rest with
          | ',' :: rest2 => skipJson fuel (.arrayItems false) (skipWs rest2)
          | c2 :: rest2 => if c2 = ']' then some rest2 else none
          | [] => none
    | .objectMembers allowClose, c :: cs =>
      if allowClose && c = rbrace then some cs
      else if c = quoteChar then
        match parseStringChars (cs.length + 1) cs with
        | none => none
        | some (_, afterKey) =>
          match skipWs afterKey with
          | ':' :: afterColon =>
            match skipJson fuel .value (skipWs afterColon) with
            | none => none
            | some rest =>
              match skipWs rest with
              | ',' :: rest2 => skipJson fuel (.objectMembers false) (skipWs rest2)
              | c2 :: rest2 => if c2 = rbrace then some rest2 else none
              | [] => none
          | _ => none
      else none

/-- Parse one member value and classify it for the decoder: a null
literal, a number (integer literals carrying their value), or any
other well-formed JSON value skipped whole. -/
def parseMemberValue (fuel : Nat) (s : List Char) : Option (JsonValKind × List Char) :=
  match s with
  | [] => none
  | c :: cs =>
    if c = 'n' then
      match cs with
      | 'u' :: 'l' :: 'l' :: rest => some (.nullVal, rest)
      | _ => none
    else if c = '-' ∨ isDigitChar c = true then
      match parseNumberTok (c :: cs) with
      | some (some n, rest) => some (.intVal n, rest)
      | some (none, rest) => some (.otherVal, rest)
      | none => none
    else
      match skipJson fuel .value (c :: cs) with
      | some rest => some (.otherVal, rest)
      | none => none

/-- Parse one member of a JSON object (first member expected next),
updating the record under construction as `json.Unmarshal` does: the
member key is unescaped and matched case-insensitively against the
balance field name; an integer value for a matching key sets the
balance (last occurrence wins), a null value leaves it unchanged, any
other value form for a matching key is a type error; a member with any
other key is skipped whatever the form of its value. At the closing
bracket the member list ends; after a comma the remainder is handed to
the continuation `k`. -/
def parseMembersStep (k : Account → List Char → Option (Account × List Char))
    (a : Account) (s : List Char) : Option (Account × List Char) :=
  match skipWs s with
  | [] => none
  | c :: cs =>
    if c = quoteChar then
      match parseStringChars (cs.length + 1) cs with
      | none => none
      | some (key, afterKey) =>
        match skipWs afterKey with
        | ':' :: afterColon =>
          match parseMemberValue (2 * afterColon.length + 2) (skipWs afterColon) with
          | none => none
          | some (kind, afterVal) =>
            match (if keyMatchesBalance key then
                     (match kind with
                      | .intVal n => some { Balance := n }
                      | .nullVal => some a
                      | .otherVal => none)
                   else some a : Option Account) with
            | none => none
            | some a2 =>
              match skipWs afterVal with
              | ',' :: rest2 => k a2 rest2
              | c2 :: rest2 => if c2 = rbrace then some (a2, rest2) else none
              | [] => none
        | _ => none
    else none

/-- Parse the members of a JSON object after its opening bracket,
iterating `parseMembersStep` over the comma-separated member list and
returning the record and the remainder after the closing bracket. The
fuel bounds the recursion; each member consumes at least three
characters, so any fuel beyond the input length is enough. -/
def parseMembers : Nat → Account → List Char → Option (Account × List Char)
  | 0, _, _ => none
  | fuel + 1, a, s => parseMembersStep (parseMembers fuel) a s

/-- Deserialization of an account record (`Account.decode` in bank.go,
backed by `json.Unmarshal` into a zero-valued `Account`): accepts a
JSON object (fields as in `parseMembers`, absent balance field leaving
the zero default) or JSON null (leaving the zero default), each with
only whitespace around it; everything else is a malformed record. -/
def Account.decode (bs : List Char) : Except Err Account :=
  match skipWs bs with
  | [] => .error .MalformedRecord
  | c :: cs =>
    if c = lbrace then
      match skipWs cs with
      | [] => .error .MalformedRecord
      | c2 :: cs2 =>
        if c2 = rbrace then
          if (skipWs cs2).isEmpty then .ok { Balance := 0 } else .error .MalformedRecord
        else
          match parseMembers (bs.length + 1) { Balance := 0 } (c2 :: cs2) with
          | some (a, rest) =>
            if (skipWs rest).isEmpty then .ok a else .error .MalformedRecord
          | none => .error .MalformedRecord
    else if c = 'n' then
      match cs with
      | 'u' :: 'l' :: 'l' :: rest =>
        if (skipWs rest).isEmpty then .ok { Balance := 0 } else .error .MalformedRecord
      | _ => .error .MalformedRecord
    else .error .MalformedRecord

/-- Keys of the key-value store, as byte strings. -/
abbrev Key := List Char

/-- Stored values of the key-value store, as byte strings. -/
abbrev Value := List Char

/-- Contents of the key-value store as one attempt observes them: an
association list with at most one entry per key, since writes replace. -/
abbrev Store := List (Key × Value)

/-- Read the raw bytes stored under a key. A missing key reads as the
empty byte string: a Get of an absent key yields a row whose value
bytes are nil. -/
def storeGet (s : Store) (k : Key) : Value :=
  match s.find? (fun p => decide (p.1 = k)) with
  | some p => p.2
  | none => []

/-- Write bytes under a key, replacing any previous entry. -/
def storePut (s : Store) (k : Key) (v : Value) : Store :=
  match s with
  | [] => [(k, v)]
  | p :: rest => if p.1 = k then (k, v) :: rest else p :: storePut rest k v

/-- Membership of a key in a half-open byte-wise key range. -/
def inRange (startKey endKey k : Key) : Bool :=
  !(bytesLt k startKey) && bytesLt k endKey

/-- Insert a row into a list of rows sorted by key. -/
def insertByKey (p : Key × Value) : List (Key × Value) → List (Key × Value)
  | [] => [p]
  | q :: qs => if bytesLt q.1 p.1 then q :: insertByKey p qs else p :: q :: qs

/-- Sort rows by byte-wise key order. -/
def sortByKey (l : List (Key × Value)) : List (Key × Value) :=
  l.foldr insertByKey []

/-- Range scan of the store: the rows whose keys lie in the half-open
range, in ascending byte-wise key order, truncated to `limit` rows —
the adapter contract `tx.Scan(startKey, endKey, maxRows)` consumed by
`sumAllAccounts`. -/
def storeScan (s : Store) (startKey endKey : Key) (limit : Nat) : List (Key × Value) :=
  (sortByKey (s.filter (fun p => inRange startKey endKey p.1))).take limit

/-- Running sum of the balances decoded from a list of rows, fatal on
the first row whose value bytes do not decode (the loop body of
`sumAllAccounts` accumulating `result += account.Balance`). -/
def sumDecodedAux (acc : Int) : List (Key × Value) → Except Err Int
  | [] => .ok acc
  | r :: rs =>
    match Account.decode r.2 with
    | .ok a => sumDecodedAux (acc + a.Balance) rs
    | .error e => .error e

/-- Row-count guard and summation applied to the rows a scan returned:
any row count different from `numAccounts` is fatal (the source checks
the scanned row count with a disequality test before summing), and
otherwise every row is decoded and the balances are summed. -/
def sumRowsChecked (rows : List (Key × Value)) (numAccounts : Nat) : Except Err Int :=
  if rows.length ≠ numAccounts then .error (.IncompleteScan rows.length numAccounts)
  else sumDecodedAux 0 rows

/-- Read the balances in all the accounts and return their sum
(`Bank.sumAllAccounts` in bank.go): scan the identifier range from
account 0 to account `numAccounts` with row limit `numAccounts`, fail
fatally unless exactly `numAccounts` rows come back, then decode and
sum. -/
def sumAllAccounts (store : Store) (numAccounts : Nat) : Except Err Int :=
  sumRowsChecked (storeScan store (makeAccountID 0) (makeAccountID numAccounts) numAccounts)
    numAccounts

/-- One iteration of `Bank.periodicallyCheckBalances` in bank.go after
the sleep: sum all accounts and terminate fatally, reporting the
observed total, when the total differs from the expected
`numAccounts * initCash`; report success otherwise. The iteration
issues no writes — its only store operation is the scan inside
`sumAllAccounts` — so it is a function of the store, not on it. -/
def periodicallyCheckBalancesStep (store : Store) (numAccounts : Nat) (initCash : Int) :
    Except Err Unit :=
  match sumAllAccounts store numAccounts with
  | .error e => .error e
  | .ok totalAmount =>
    if totalAmount ≠ (numAccounts : Int) * initCash then
      .error (.InvariantViolation totalAmount)
    else .ok ()

/-- Initialize all the bank accounts with cash
(`Bank.initBankAccounts` in bank.go): one batched write putting the
encoded record with the starting balance under each of the
`numAccounts` identifiers, applied to an empty store. -/
def initBankAccounts (numAccounts : Nat) (cash : Int) : Store :=
  (List.range numAccounts).foldl
    (fun s i => storePut s (makeAccountID i) (Account.encode { Balance := cash })) []

/-- One invocation of the `transferMoney` closure in
`Bank.continuousMoneyTransfer`: batch-read both accounts, decode the
source record, silently skip (no write) when the source balance is
below the amount, otherwise decode the destination record, compute the
two new balances, encode them, and issue the write exactly as the
source does — `batchWrite.Put(fromValue, toValue)`, whose first
argument is the key, so the row written is keyed by the encoded source
record and holds the encoded destination record. -/
def transferMoney (store : Store) (fromKey toKey : Key) (exchangeAmount : Int) :
    Except Err Store :=
  match Account.decode (storeGet store fromKey) with
  | .error e => .error e
  | .ok fromAccount =>
    if fromAccount.Balance < exchangeAmount then .ok store
    else
      match Account.decode (storeGet store toKey) with
      | .error e => .error e
      | .ok toAccount =>
        .ok (storePut store
          (Account.encode { Balance := fromAccount.Balance - exchangeAmount })
          (Account.encode { Balance := toAccount.Balance + exchangeAmount }))

/-- Process-local state of the bank harness: the store contents and
the shared transfer counter (`Bank.numTransfers`). -/
structure BankState where
  store : Store
  numTransfers : Int
  deriving DecidableEq

/-- One iteration of the loop body of `Bank.continuousMoneyTransfer`
for a chosen pair of account indices and amount: when the two
identifiers coincide the iteration is a resample (no attempt, no
counter change); otherwise the transfer runs, a fatal error aborts the
worker, and on any non-fatal completion the shared counter is
incremented by one. -/
def transferAttempt (b : BankState) (fromIdx toIdx : Nat) (exchangeAmount : Int) :
    Except Err BankState :=
  if makeAccountID fromIdx = makeAccountID toIdx then .ok b
  else
    match transferMoney b.store (makeAccountID fromIdx) (makeAccountID toIdx) exchangeAmount with
    | .error e => .error e
    | .ok store2 => .ok { store := store2, numTransfers := b.numTransfers + 1 }

/-- Balance stored in the ledger under the identifier of account `i`,
obtained by decoding the bytes at that key. -/
def readBalance (store : Store) (i : Nat) : Except Err Int :=
  match Account.decode (storeGet store (makeAccountID i)) with
  | .ok a => .ok a.Balance
  | .error e => .error e

/-- Non-negativity predicate over the ledger: every record stored under
one of the `numAccounts` account identifiers that decodes carries a
balance that is at least zero. -/
def goodBalances (store : Store) (numAccounts : Nat) : Bool :=
  (List.range numAccounts).all fun i =>
    match Account.decode (storeGet store (makeAccountID i)) with
    | .ok a => decide (0 ≤ a.Balance)
    | .error _ => true

/-- Test whether the first non-whitespace character of the input opens
one of the two top-level forms `Account.decode` can accept: an object
or a null literal. -/
def startsRecordToken (bs : List Char) : Bool :=
  match skipWs bs with
  | [] => false
  | c :: _ => c = lbrace || c = 'n'

theorem natDigitsAux_succ (f n : Nat) :
    natDigitsAux (f + 1) n
      = if n < 10 then [digitChar n]
        else natDigitsAux f (n / 10) ++ [digitChar (n % 10)] := rfl

theorem natDigitsAux_fuel (n : Nat) :
    ∀ f₁ f₂ : Nat, n < f₁ → n < f₂ → natDigitsAux f₁ n = natDigitsAux f₂ n := by
  induction n using Nat.strong_induction_on with
  | _ n ih =>
    intro f₁ f₂ h₁ h₂
    match f₁, h₁ with
    | g₁ + 1, h₁ =>
      match f₂, h₂ with
      | g₂ + 1, h₂ =>
        by_cases hn : n < 10
        · simp [natDigitsAux_succ, hn]
        · have hpos : 0 < n := by omega
          have hdiv : n / 10 < n := Nat.div_lt_self hpos (by omega)
          rw [natDigitsAux_succ, natDigitsAux_succ, if_neg hn, if_neg hn,
            ih (n / 10) hdiv g₁ g₂ (by omega) (by omega)]

/-- Unfolding rule for `natDigits` without fuel. -/
theorem natDigits_eq (n : Nat) :
    natDigits n = if n < 10 then [digitChar n]
                  else natDigits (n / 10) ++ [digitChar (n % 10)] := by
  show natDigitsAux (n + 1) n = _
  rw [natDigitsAux_succ]
  by_cases hn : n < 10
  · simp [hn]
  · have hpos : 0 < n := by omega
    have hdiv : n / 10 < n := Nat.div_lt_self hpos (by omega)
    rw [if_neg hn, if_neg hn,
      natDigitsAux_fuel (n / 10) n (n / 10 + 1) hdiv (by omega)]
    rfl

theorem natDigits_ne_nil (n : Nat) : natDigits n ≠ [] := by
  rw [natDigits_eq]
  by_cases hn : n < 10 <;> simp [hn]

theorem digitChar_toNat {d : Nat} (hd : d < 10) : (digitChar d).toNat = 48 + d := by
  interval_cases d <;> decide

theorem isDigitChar_digitChar {d : Nat} (hd : d < 10) : isDigitChar (digitChar d) = true := by
  interval_cases d <;> decide

theorem digitVal_digitChar {d : Nat} (hd : d < 10) : digitVal (digitChar d) = d := by
  interval_cases d <;> decide

theorem natDigits_all_digits (n : Nat) :
    ∀ c ∈ natDigits n, isDigitChar c = true := by
  induction n using Nat.strong_induction_on with
  | _ n ih =>
    rw [natDigits_eq]
    by_cases hn : n < 10
    · simp only [hn, if_true, List.mem_singleton]
      rintro c rfl
      exact isDigitChar_digitChar hn
    · have hpos : 0 < n := by omega
      have hdiv : n / 10 < n := Nat.div_lt_self hpos (by omega)
      simp only [hn, if_false, List.mem_append, List.mem_singleton]
      rintro c (hc | rfl)
      · exact ih (n / 10) hdiv c hc
      · exact isDigitChar_digitChar (Nat.mod_lt n (by omega))

theorem isDigitChar_bounds {c : Char} (hc : isDigitChar c = true) :
    48 ≤ c.toNat ∧ c.toNat ≤ 57 := by
  simp only [isDigitChar, Bool.and_eq_true, decide_eq_true_eq] at hc
  exact hc

theorem digitVal_le_nine {c : Char} (hc : isDigitChar c = true) : digitVal c ≤ 9 := by
  have := isDigitChar_bounds hc
  simp only [digitVal]
  omega

theorem digitsValAux_nil (acc : Nat) : digitsValAux acc [] = acc := rfl

theorem digitsValAux_cons (acc : Nat) (c : Char) (l : List Char) :
    digitsValAux acc (c :: l) = digitsValAux (acc * 10 + digitVal c) l := rfl

theorem digitsVal_nil : digitsVal [] = 0 := rfl

/-- The value of a digit string computed from an arbitrary accumulator. -/
theorem digitsValAux_eq (l : List Char) :
    ∀ acc : Nat, digitsValAux acc l = acc * 10 ^ l.length + digitsVal l := by
  induction l with
  | nil => intro acc; rw [digitsValAux_nil, digitsVal_nil]; simp
  | cons c l ih =>
    intro acc
    have h1 : digitsVal (c :: l) = digitsValAux (0 * 10 + digitVal c) l := rfl
    rw [digitsValAux_cons, ih (acc * 10 + digitVal c), h1, ih (0 * 10 + digitVal c)]
    simp only [List.length_cons]
    ring

theorem digitsVal_cons (c : Char) (l : List Char) :
    digitsVal (c :: l) = digitVal c * 10 ^ l.length + digitsVal l := by
  have h1 : digitsVal (c :: l) = digitsValAux (0 * 10 + digitVal c) l := rfl
  rw [h1, digitsValAux_eq l (0 * 10 + digitVal c)]
  ring

theorem digitsValAux_append (l₁ l₂ : List Char) :
    ∀ acc : Nat, digitsValAux acc (l₁ ++ l₂) = digitsValAux (digitsValAux acc l₁) l₂ := by
  induction l₁ with
  | nil => intro acc; rfl
  | cons c l ih =>
    intro acc
    rw [List.cons_append, digitsValAux_cons, digitsValAux_cons]
    exact ih _

theorem digitsVal_append_singleton (l : List Char) (c : Char) :
    digitsVal (l ++ [c]) = digitsVal l * 10 + digitVal c := by
  simp only [digitsVal, digitsValAux_append l [c] 0]
  rfl

theorem digitsVal_natDigits (n : Nat) : digitsVal (natDigits n) = n := by
  induction n using Nat.strong_induction_on with
  | _ n ih =>
    rw [natDigits_eq]
    by_cases hn : n < 10
    · simp only [hn, if_true]
      rw [show [digitChar n] = [] ++ [digitChar n] from rfl, digitsVal_append_singleton,
        digitsVal_nil, digitVal_digitChar hn]
      omega
    · have hpos : 0 < n := by omega
      have hdiv : n / 10 < n := Nat.div_lt_self hpos (by omega)
      simp only [hn, if_false]
      rw [digitsVal_append_singleton, ih (n / 10) hdiv,
        digitVal_digitChar (Nat.mod_lt n (by omega))]
      omega

theorem digitsVal_lt (l : List Char) (hl : ∀ c ∈ l, isDigitChar c = true) :
    digitsVal l < 10 ^ l.length := by
  induction l with
  | nil => rw [digitsVal_nil]; simp
  | cons c l ih =>
    rw [digitsVal_cons]
    have hc : digitVal c ≤ 9 := digitVal_le_nine (hl c (by simp))
    have ht : digitsVal l < 10 ^ l.length := ih (fun x hx => hl x (by simp [hx]))
    simp only [List.length_cons, pow_succ]
    nlinarith

theorem natDigits_length_le :
    ∀ k n : Nat, 0 < k → n < 10 ^ k → (natDigits n).length ≤ k := by
  intro k
  induction k with
  | zero => intro n h0 _; omega
  | succ k ih =>
    intro n _ hn
    rw [natDigits_eq]
    by_cases h10 : n < 10
    · simp only [h10, if_true, List.length_singleton]
      omega
    · have hpos : 0 < n := by omega
      have hk : 0 < k := by
        by_contra hk0
        have hk' : k = 0 := by omega
        subst hk'
        omega
      have hdiv : n / 10 < 10 ^ k := by
        have hmul : n < 10 ^ k * 10 := by
          calc n < 10 ^ (k + 1) := hn
          _ = 10 ^ k * 10 := by rw [pow_succ]
        omega
      have hlen := ih (n / 10) hk hdiv
      simp only [h10, if_false, List.length_append, List.length_singleton]
      omega

theorem makeAccountID_length {n : Nat} (hn : n < 10 ^ 9) :
    (makeAccountID n).length = 9 := by
  have hlen : (natDigits n).length ≤ 9 := natDigits_length_le 9 n (by omega) hn
  simp only [makeAccountID, padZeros, List.length_append, List.length_replicate]
  omega

theorem makeAccountID_all_digits (n : Nat) :
    ∀ c ∈ makeAccountID n, isDigitChar c = true := by
  intro c hc
  simp only [makeAccountID, padZeros, List.mem_append, List.mem_replicate] at hc
  rcases hc with hc | hc
  · rw [hc.2]; decide
  · exact natDigits_all_digits n c hc

theorem digitsVal_replicate_zero (k : Nat) :
    ∀ acc : Nat, digitsValAux acc (List.replicate k '0') = acc * 10 ^ k := by
  induction k with
  | zero => intro acc; simp [digitsValAux_nil]
  | succ k ih =>
    intro acc
    rw [List.replicate_succ, digitsValAux_cons, ih]
    have h0 : digitVal '0' = 0 := by decide
    rw [h0, pow_succ]
    ring

theorem digitsVal_padZeros (w : Nat) (l : List Char) :
    digitsVal (padZeros w l) = digitsVal l := by
  simp only [padZeros, digitsVal, digitsValAux_append, digitsVal_replicate_zero]
  simp

theorem digitsVal_makeAccountID (n : Nat) : digitsVal (makeAccountID n) = n := by
  rw [makeAccountID, digitsVal_padZeros, digitsVal_natDigits]

/-- On digit strings of equal length, numeric order implies byte-wise
lexicographic order. -/
theorem bytesLt_of_digitsVal_lt :
    ∀ s t : List Char, s.length = t.length →
      (∀ c ∈ s, isDigitChar c = true) → (∀ c ∈ t, isDigitChar c = true) →
      digitsVal s < digitsVal t → bytesLt s t = true := by
  intro s
  induction s with
  | nil =>
    intro t hlen _ _ hval
    have ht : t = [] := by
      cases t with
      | nil => rfl
      | cons c cs => simp at hlen
    subst ht
    rw [digitsVal_nil] at hval
    omega
  | cons a as ih =>
    intro t hlen hs ht hval
    cases t with
    | nil => simp at hlen
    | cons b bs =>
      have hlen' : as.length = bs.length := by simpa using hlen
      have hda : isDigitChar a = true := hs a (by simp)
      have hdb : isDigitChar b = true := ht b (by simp)
      have hba := isDigitChar_bounds hda
      have hbb := isDigitChar_bounds hdb
      rw [digitsVal_cons, digitsVal_cons, hlen'] at hval
      show (if a.toNat < b.toNat then true
            else if b.toNat < a.toNat then false else bytesLt as bs) = true
      rcases Nat.lt_trichotomy a.toNat b.toNat with hab | hab | hab
      · rw [if_pos hab]
      · have hd : digitVal a = digitVal b := by simp only [digitVal, hab]
        rw [hd] at hval
        rw [if_neg (by omega), if_neg (by omega)]
        apply ih bs hlen' (fun c hc => hs c (by simp [hc])) (fun c hc => ht c (by simp [hc]))
        omega
      · exfalso
        have hvb : digitsVal bs < 10 ^ bs.length :=
          digitsVal_lt bs (fun c hc => ht c (by simp [hc]))
        have hgt : digitVal b < digitVal a := by simp only [digitVal]; omega
        nlinarith [digitsVal_lt as (fun c hc => hs c (by simp [hc]))]

theorem bytesLt_irrefl : ∀ s : List Char, bytesLt s s = false := by
  intro s
  induction s with
  | nil => rfl
  | cons a as ih =>
    show (if a.toNat < a.toNat then true
          else if a.toNat < a.toNat then false else bytesLt as as) = false
    rw [if_neg (by omega), if_neg (by omega), ih]

theorem storeGet_nil (k : Key) : storeGet [] k = [] := rfl

theorem storeGet_cons (q : Key) (w : Value) (s : Store) (k : Key) :
    storeGet ((q, w) :: s) k = if q = k then w else storeGet s k := by
  unfold storeGet
  by_cases h : q = k
  · rw [List.find?_cons_of_pos _ (by simp [h]), if_pos h]
  · rw [List.find?_cons_of_neg _ (by simp [h]), if_neg h]

theorem storePut_nil (k : Key) (v : Value) : storePut [] k v = [(k, v)] := rfl

theorem storePut_cons (q : Key) (w : Value) (s : Store) (k : Key) (v : Value) :
    storePut ((q, w) :: s) k v
      = if q = k then (k, v) :: s else (q, w) :: storePut s k v := rfl

theorem storeGet_storePut_ne (s : Store) (k k2 : Key) (v : Value) (hne : k ≠ k2) :
    storeGet (storePut s k v) k2 = storeGet s k2 := by
  induction s with
  | nil => rw [storePut_nil, storeGet_cons, if_neg hne, storeGet_nil]
  | cons p s ih =>
    obtain ⟨q, w⟩ := p
    rw [storePut_cons]
    by_cases hqk : q = k
    · rw [if_pos hqk, storeGet_cons, storeGet_cons, if_neg hne, if_neg (hqk ▸ hne)]
    · rw [if_neg hqk, storeGet_cons, storeGet_cons, ih]

theorem makeAccountID_head_digit (n : Nat) :
    ∃ c cs, makeAccountID n = c :: cs ∧ isDigitChar c = true := by
  unfold makeAccountID padZeros
  cases hm : 9 - (natDigits n).length with
  | zero =>
    cases hnd : natDigits n with
    | nil => exact absurd hnd (natDigits_ne_nil n)
    | cons c cs =>
      refine ⟨c, cs, by simp [hnd], ?_⟩
      exact natDigits_all_digits n c (by rw [hnd]; simp)
  | succ m =>
    refine ⟨'0', List.replicate m '0' ++ natDigits n, ?_, by decide⟩
    rw [List.replicate_succ]
    rfl

theorem encode_ne_makeAccountID (a : Account) (n : Nat) :
    Account.encode a ≠ makeAccountID n := by
  intro h
  obtain ⟨c, cs, hid, hdig⟩ := makeAccountID_head_digit n
  rw [hid] at h
  have h2 : (Account.encode a).head? = (c :: cs).head? := by rw [h]
  have h3 : (Account.encode a).head? = some lbrace := rfl
  rw [h3, List.head?_cons] at h2
  have h4 : lbrace = c := Option.some.inj h2
  rw [← h4] at hdig
  exact absurd hdig (by decide)

/-- C1: Scenario A evaluated on the code. Applying one transfer of
amount 100 from account 0 to account 1, starting from 3 accounts each
holding 1000, leaves the balances stored under the account identifiers
at 1000, 1000, 1000 — not 900, 1100, 1000 — and the updated records
land in one stray row keyed by the encoded source value, because the
write call in `transferMoney` passes the two encoded values and no
key, so its first argument (the encoded source record) becomes the
key. The sum over the account range stays 3000 only because no account
row changed. -/
theorem scenarioA_transfer_misses_accounts :
    (transferAttempt { store := initBankAccounts 3 1000, numTransfers := 0 } 0 1 100).map
      (fun b => (readBalance b.store 0, readBalance b.store 1, readBalance b.store 2,
        sumAllAccounts b.store 3, storeGet b.store (Account.encode { Balance := 900 })))
    = .ok (.ok 1000, .ok 1000, .ok 1000, .ok 3000, Account.encode { Balance := 1100 }) := rfl

/-- C2 counterexample: an attempt that is skipped for insufficient
funds (source balance 50, transfer amount 75) performs no mutation of
the store yet still increments the shared transfer counter from 0 to
1, so the counter does not count only committed balance mutations. -/
theorem numTransfers_counts_skipped_attempt :
    transferAttempt { store := initBankAccounts 2 50, numTransfers := 0 } 0 1 75
      = .ok { store := initBankAccounts 2 50, numTransfers := 1 } := rfl

/-- C2 amended: the shared transfer counter is incremented by exactly
one after every attempt on distinct identifiers that completes without
a fatal error — including attempts that are skipped for insufficient
funds and perform no mutation — and an attempt that fails fatally
never reaches the increment. -/
theorem numTransfers_incremented_per_attempt (b : BankState) (i j : Nat) (amt : Int)
    (hne : makeAccountID i ≠ makeAccountID j) :
    ∀ b2 : BankState, transferAttempt b i j amt = .ok b2 →
      b2.numTransfers = b.numTransfers + 1 := by
  intro b2 h
  unfold transferAttempt at h
  rw [if_neg hne] at h
  cases htm : transferMoney b.store (makeAccountID i) (makeAccountID j) amt with
  | error e => rw [htm] at h; exact absurd h (by simp)
  | ok s2 =>
    rw [htm] at h
    injection h with h2
    rw [← h2]

theorem numTransfers_incremented_per_attempt_witness :
    ({ store := initBankAccounts 2 50, numTransfers := 1 } : BankState).numTransfers
      = ({ store := initBankAccounts 2 50, numTransfers := 0 } : BankState).numTransfers + 1 :=
  numTransfers_incremented_per_attempt
    { store := initBankAccounts 2 50, numTransfers := 0 } 0 1 75 (by decide)
    { store := initBankAccounts 2 50, numTransfers := 1 } rfl

/-- C3 counterexample: decoding the two-byte empty-object input — a
byte sequence that contains no balance field — succeeds with the
default balance 0 instead of failing with a malformed-record error:
the decoder backing `Account.decode` leaves absent fields at their
zero value. -/
theorem decode_defaults_on_missing_balance_field :
    Account.decode [lbrace, rbrace] = .ok { Balance := 0 } := rfl

/-- C3 amended: decode fails with a malformed-record error whenever
the first non-whitespace byte of the input opens neither a JSON object
nor a null literal; but decode does not fail merely because the
balance field is absent — a well-formed object without one, whatever
the value forms of its unknown members (here: an array-valued and a
null-valued unknown member), and a bare null each decode successfully
to the default balance 0; and the balance key is matched
case-insensitively, so a lower-case variant sets the balance. -/
theorem decode_malformed_and_default :
    (∀ bs : List Char, startsRecordToken bs = false →
        Account.decode bs = .error .MalformedRecord)
      ∧ Account.decode "null".data = .ok { Balance := 0 }
      ∧ Account.decode [lbrace, quoteChar, 'X', quoteChar, ':', '[', '1', ']', rbrace]
          = .ok { Balance := 0 }
      ∧ Account.decode ([lbrace, quoteChar, 'X', quoteChar, ':'] ++ "null".data ++ [rbrace])
          = .ok { Balance := 0 }
      ∧ Account.decode ([lbrace, quoteChar] ++ "balance".data ++ [quoteChar, ':', '5', rbrace])
          = .ok { Balance := 5 } := by
  refine ⟨?_, rfl, rfl, rfl, rfl⟩
  intro bs h
  unfold startsRecordToken at h
  unfold Account.decode
  cases hs : skipWs bs with
  | nil => rfl
  | cons c cs =>
    rw [hs] at h
    simp only [Bool.or_eq_false_iff, decide_eq_false_iff_not] at h
    dsimp only
    rw [if_neg h.1, if_neg h.2]

theorem decode_malformed_and_default_witness :
    Account.decode "xyz".data = .error .MalformedRecord :=
  decode_malformed_and_default.1 "xyz".data rfl

/-- C4: skip on insufficiency. When the decoded source balance is
below the transfer amount, the attempt issues no write and returns
without error: the resulting store is exactly the input store, so the
source and destination balances (and every other row) are unchanged. -/
theorem transferMoney_insufficient_skips (store : Store) (fromKey toKey : Key)
    (amt : Int) (a : Account)
    (hdec : Account.decode (storeGet store fromKey) = .ok a)
    (hlt : a.Balance < amt) :
    transferMoney store fromKey toKey amt = .ok store := by
  unfold transferMoney
  rw [hdec]
  dsimp only
  rw [if_pos hlt]

theorem transferMoney_insufficient_skips_witness :
    transferMoney (initBankAccounts 2 50) (makeAccountID 0) (makeAccountID 1) 75
      = .ok (initBankAccounts 2 50) :=
  transferMoney_insufficient_skips (initBankAccounts 2 50) (makeAccountID 0)
    (makeAccountID 1) 75 { Balance := 50 } rfl (by decide)

/-- C5: one iteration of the invariant monitor, given that the
snapshot sum of all account balances is `total`, terminates fatally
reporting that observed total exactly when the total differs from
`numAccounts * initialBalance`, and reports success otherwise. The
iteration issues no writes (its only store operation is the scan), so
it mutates no account. -/
theorem periodicallyCheckBalancesStep_fatal_iff (store : Store) (numAccounts : Nat)
    (initCash total : Int)
    (hsum : sumAllAccounts store numAccounts = .ok total) :
    (total ≠ (numAccounts : Int) * initCash →
        periodicallyCheckBalancesStep store numAccounts initCash
          = .error (.InvariantViolation total))
      ∧ (total = (numAccounts : Int) * initCash →
        periodicallyCheckBalancesStep store numAccounts initCash = .ok ()) := by
  unfold periodicallyCheckBalancesStep
  rw [hsum]
  dsimp only
  constructor
  · intro hne
    rw [if_pos hne]
  · intro heq
    rw [if_neg (fun hcon => hcon heq)]

theorem periodicallyCheckBalancesStep_fatal_iff_witness :
    periodicallyCheckBalancesStep (initBankAccounts 3 1000) 3 1000 = .ok () :=
  (periodicallyCheckBalancesStep_fatal_iff (initBankAccounts 3 1000) 3 1000 3000 rfl).2
    (by decide)

/-- C8: when the full-range scan over the `numAccounts` identifiers
returns fewer rows than `numAccounts`, the balance-summing read fails
fatally with an incomplete-scan error carrying the observed and
expected row counts, and returns no sum. -/
theorem sumAllAccounts_incomplete_scan (store : Store) (numAccounts : Nat)
    (h : (storeScan store (makeAccountID 0) (makeAccountID numAccounts) numAccounts).length
        < numAccounts) :
    sumAllAccounts store numAccounts
      = .error (.IncompleteScan
          (storeScan store (makeAccountID 0) (makeAccountID numAccounts) numAccounts).length
          numAccounts) := by
  unfold sumAllAccounts sumRowsChecked
  rw [if_pos (Nat.ne_of_lt h)]

theorem sumAllAccounts_incomplete_scan_witness :
    sumAllAccounts (initBankAccounts 2 1000) 3 = .error (.IncompleteScan 2 3) :=
  sumAllAccounts_incomplete_scan (initBankAccounts 2 1000) 3 (by decide)

/-- C10: the row-count guard of the balance-summing scan treats any
row count different from `numAccounts` as fatal — fewer rows and more
rows alike — rather than summing whatever rows came back. -/
theorem sumRowsChecked_row_count_fatal (rows : List (Key × Value)) (numAccounts : Nat)
    (h : rows.length ≠ numAccounts) :
    sumRowsChecked rows numAccounts = .error (.IncompleteScan rows.length numAccounts) := by
  unfold sumRowsChecked
  rw [if_pos h]

theorem sumRowsChecked_row_count_fatal_witness :
    sumRowsChecked (initBankAccounts 4 1) 3 = .error (.IncompleteScan 4 3) :=
  sumRowsChecked_row_count_fatal (initBankAccounts 4 1) 3 (by decide)

/-- Rows stored under account identifiers are unchanged by a transfer
attempt: the only write a successful attempt issues is keyed by an
encoded record, which is never an account identifier (it opens with a
bracket character, identifiers open with a digit). -/
theorem transferAttempt_preserves_account_rows (b : BankState) (i j : Nat) (amt : Int)
    (b2 : BankState) (h : transferAttempt b i j amt = .ok b2) :
    ∀ m : Nat, storeGet b2.store (makeAccountID m) = storeGet b.store (makeAccountID m) := by
  intro m
  unfold transferAttempt at h
  by_cases hij : makeAccountID i = makeAccountID j
  · rw [if_pos hij] at h
    injection h with h2
    rw [← h2]
  · rw [if_neg hij] at h
    unfold transferMoney at h
    cases hdf : Account.decode (storeGet b.store (makeAccountID i)) with
    | error e => rw [hdf] at h; exact absurd h (by simp)
    | ok fa =>
      rw [hdf] at h
      dsimp only at h
      by_cases hb : fa.Balance < amt
      · rw [if_pos hb] at h
        injection h with h2
        rw [← h2]
      · rw [if_neg hb] at h
        cases hdt : Account.decode (storeGet b.store (makeAccountID j)) with
        | error e => rw [hdt] at h; exact absurd h (by simp)
        | ok ta =>
          rw [hdt] at h
          dsimp only at h
          injection h with h2
          rw [← h2]
          exact storeGet_storePut_ne _ _ _ _ (encode_ne_makeAccountID _ m)

/-- C9: non-negativity is an invariant of the transfer attempt — if
every account balance is at least zero before an attempt and the
amount is non-negative, every account balance is at least zero after a
completed attempt. On this code the account rows are in fact untouched
by the write (its key is the encoded record, not an identifier), so
the stored balances cannot change at all; and the insufficiency guard
means the written source value is never negative either. -/
theorem transferAttempt_preserves_nonneg (b : BankState) (numAccounts i j : Nat)
    (amt : Int) (b2 : BankState)
    (hg : goodBalances b.store numAccounts = true) (hamt : 0 ≤ amt)
    (h : transferAttempt b i j amt = .ok b2) :
    goodBalances b2.store numAccounts = true := by
  unfold goodBalances at hg ⊢
  rw [List.all_eq_true] at hg ⊢
  intro x hx
  have hpres := transferAttempt_preserves_account_rows b i j amt b2 h x
  have hgx := hg x hx
  rw [hpres]
  exact hgx

theorem transferAttempt_preserves_nonneg_witness :
    goodBalances
      (storePut (initBankAccounts 2 1000) (Account.encode { Balance := 995 })
        (Account.encode { Balance := 1005 })) 2 = true :=
  transferAttempt_preserves_nonneg
    { store := initBankAccounts 2 1000, numTransfers := 0 } 2 0 1 5
    { store := storePut (initBankAccounts 2 1000) (Account.encode { Balance := 995 })
        (Account.encode { Balance := 1005 }), numTransfers := 1 }
    (by decide) (by decide) rfl

theorem parseDigitsAux_nil (acc : Nat) : parseDigitsAux acc [] = (acc, []) := rfl

theorem parseDigitsAux_cons (acc : Nat) (c : Char) (cs : List Char) :
    parseDigitsAux acc (c :: cs)
      = if isDigitChar c then parseDigitsAux (acc * 10 + digitVal c) cs
        else (acc, c :: cs) := rfl

/-- Greedy digit consumption stops exactly at the first non-digit:
on a digit string followed by a remainder that does not begin with a
digit, it returns the accumulated value of the digits and the
untouched remainder. -/
theorem parseDigitsAux_digits (l : List Char) :
    ∀ (acc : Nat) (rest : List Char),
      (∀ c ∈ l, isDigitChar c = true) →
      (∀ c2 cs2, rest = c2 :: cs2 → isDigitChar c2 = false) →
      parseDigitsAux acc (l ++ rest) = (digitsValAux acc l, rest) := by
  induction l with
  | nil =>
    intro acc rest _ hrest
    rw [List.nil_append, digitsValAux_nil]
    cases rest with
    | nil => rfl
    | cons c2 cs2 =>
      rw [parseDigitsAux_cons, hrest c2 cs2 rfl]
      rfl
  | cons c l ih =>
    intro acc rest hl hrest
    rw [List.cons_append, parseDigitsAux_cons, if_pos (hl c (by simp)), digitsValAux_cons]
    exact ih (acc * 10 + digitVal c) rest (fun x hx => hl x (by simp [hx])) hrest

/-- A digit character is not whitespace, not a quote, not a minus
sign, and not the letter opening a null literal. -/
theorem digit_not_ws_quote_minus {c : Char} (h : isDigitChar c = true) :
    isWsChar c = false ∧ (c = quoteChar → False) ∧ (c = '-' → False)
      ∧ (c = 'n' → False) := by
  have hb := isDigitChar_bounds h
  refine ⟨?_, ?_, ?_, ?_⟩
  · simp only [isWsChar, Bool.or_eq_false_iff, decide_eq_false_iff_not]
    refine ⟨⟨⟨?_, ?_⟩, ?_⟩, ?_⟩ <;> (intro he; rw [he] at hb; revert hb; decide)
  · intro he; rw [he] at hb; revert hb; decide
  · intro he; rw [he] at hb; revert hb; decide
  · intro he; rw [he] at hb; revert hb; decide

theorem parseFracExp_rbrace (n : Int) :
    parseFracExp n [rbrace] = some (some n, [rbrace]) := rfl

/-- Parsing the number formed by `intRepr` followed by the closing
bracket yields exactly the integer with the bracket left in the
remainder: the digits are consumed greedily and the bracket opens
neither a fraction nor an exponent part. -/
theorem parseNumberTok_intRepr (b : Int) :
    parseNumberTok (intRepr b ++ [rbrace]) = some (some b, [rbrace]) := by
  have hrest : ∀ c2 cs2, ([rbrace] : List Char) = c2 :: cs2 → isDigitChar c2 = false := by
    intro c2 cs2 h
    injection h with h1 h2
    rw [← h1]
    decide
  by_cases hb : b < 0
  · rw [intRepr, if_pos hb]
    obtain ⟨c, cs, hnd⟩ := List.exists_cons_of_ne_nil (natDigits_ne_nil b.natAbs)
    have hdig : isDigitChar c = true := natDigits_all_digits _ c (by rw [hnd]; simp)
    rw [hnd, List.cons_append, List.cons_append]
    unfold parseNumberTok
    dsimp only
    rw [if_pos rfl]
    rw [if_pos hdig, ← List.cons_append,
      parseDigitsAux_digits (c :: cs) 0 [rbrace]
        (fun x hx => natDigits_all_digits _ x (by rw [hnd]; exact hx)) hrest]
    dsimp only
    have hv : digitsValAux 0 (c :: cs) = b.natAbs := by
      rw [← hnd]; exact digitsVal_natDigits b.natAbs
    rw [hv]
    have hneg : -((b.natAbs : Nat) : Int) = b := by omega
    rw [hneg, parseFracExp_rbrace]
  · rw [intRepr, if_neg hb]
    obtain ⟨c, cs, hnd⟩ := List.exists_cons_of_ne_nil (natDigits_ne_nil b.toNat)
    have hdig : isDigitChar c = true := natDigits_all_digits _ c (by rw [hnd]; simp)
    obtain ⟨_, _, hminus, _⟩ := digit_not_ws_quote_minus hdig
    rw [hnd, List.cons_append]
    unfold parseNumberTok
    dsimp only
    rw [if_neg hminus, if_pos hdig, ← List.cons_append,
      parseDigitsAux_digits (c :: cs) 0 [rbrace]
        (fun x hx => natDigits_all_digits _ x (by rw [hnd]; exact hx)) hrest]
    dsimp only
    have hv : digitsValAux 0 (c :: cs) = b.toNat := by
      rw [← hnd]; exact digitsVal_natDigits b.toNat
    rw [hv]
    have htn : ((b.toNat : Nat) : Int) = b := Int.toNat_of_nonneg (by omega)
    rw [htn, parseFracExp_rbrace]

theorem skipWs_cons_not {c : Char} (cs : List Char) (h : isWsChar c = false) :
    skipWs (c :: cs) = c :: cs := by
  show (if isWsChar c then skipWs cs else c :: cs) = c :: cs
  rw [h]
  rfl

/-- The decimal representation of an integer begins with a character
that is not whitespace, does not open a null literal, and is a digit
or the minus sign. -/
theorem intRepr_head (b : Int) :
    ∃ c cs, intRepr b = c :: cs ∧ isWsChar c = false ∧ (c = 'n' → False)
      ∧ (c = '-' ∨ isDigitChar c = true) := by
  unfold intRepr
  by_cases hb : b < 0
  · rw [if_pos hb]
    exact ⟨'-', natDigits b.natAbs, rfl, by decide, by decide, Or.inl rfl⟩
  · rw [if_neg hb]
    obtain ⟨c, cs, hnd⟩ := List.exists_cons_of_ne_nil (natDigits_ne_nil b.toNat)
    have hdig : isDigitChar c = true := natDigits_all_digits _ c (by rw [hnd]; simp)
    obtain ⟨hws, _, _, hn⟩ := digit_not_ws_quote_minus hdig
    exact ⟨c, cs, hnd, hws, hn, Or.inr hdig⟩

/-- Classifying the member value formed by an integer representation
followed by the closing bracket yields the integer-literal kind with
the bracket left in the remainder, under any fuel. -/
theorem parseMemberValue_intRepr (fuel : Nat) (b : Int) :
    parseMemberValue fuel (skipWs (intRepr b ++ [rbrace]))
      = some (.intVal b, [rbrace]) := by
  obtain ⟨c, cs, hrep, hws, hn, hd⟩ := intRepr_head b
  have hnum : parseNumberTok (intRepr b ++ [rbrace]) = some (some b, [rbrace]) :=
    parseNumberTok_intRepr b
  rw [hrep] at hnum ⊢
  rw [List.cons_append, skipWs_cons_not _ hws]
  unfold parseMemberValue
  dsimp only
  rw [if_neg hn, if_pos hd, ← List.cons_append, hnum]

/-- Parsing the single member of the object produced by the encoder
sets the balance to the encoded integer and consumes the input through
the closing bracket. -/
theorem parseMembersStep_single_balance
    (k : Account → List Char → Option (Account × List Char)) (a : Account) (b : Int) :
    parseMembersStep k a
      (quoteChar :: (balanceKey ++ (quoteChar :: ':' :: (intRepr b ++ [rbrace]))))
      = some ({ Balance := b }, []) := by
  have hshape : parseMembersStep k a
      (quoteChar :: (balanceKey ++ (quoteChar :: ':' :: (intRepr b ++ [rbrace]))))
      = (match parseMemberValue (2 * (intRepr b ++ [rbrace]).length + 2)
           (skipWs (intRepr b ++ [rbrace])) with
         | none => none
         | some (kind, afterVal) =>
           match (if keyMatchesBalance balanceKey then
                    (match kind with
                     | .intVal n => some { Balance := n }
                     | .nullVal => some a
                     | .otherVal => none)
                  else some a : Option Account) with
           | none => none
           | some a2 =>
             match skipWs afterVal with
             | ',' :: rest2 => k a2 rest2
             | c2 :: rest2 => if c2 = rbrace then some (a2, rest2) else none
             | [] => none) := rfl
  rw [hshape, parseMemberValue_intRepr]
  rfl

/-- C6: idempotent encode/decode — for every valid account record,
with any signed 64-bit balance, decoding the bytes produced by
encoding the record yields exactly that record. -/
theorem decode_encode_roundtrip (a : Account)
    (hlo : -(2 ^ 63) ≤ a.Balance) (hhi : a.Balance < 2 ^ 63) :
    Account.decode (Account.encode a) = .ok a := by
  obtain ⟨b⟩ := a
  have hshape : Account.decode (Account.encode { Balance := b })
      = (match parseMembersStep (parseMembers (Account.encode { Balance := b }).length)
           { Balance := 0 }
           (quoteChar :: (balanceKey ++ (quoteChar :: ':' :: (intRepr b ++ [rbrace])))) with
         | some (a2, rest) =>
           if (skipWs rest).isEmpty then Except.ok a2 else Except.error Err.MalformedRecord
         | none => Except.error Err.MalformedRecord) := rfl
  rw [hshape, parseMembersStep_single_balance]
  rfl

theorem decode_encode_roundtrip_witness :
    Account.decode (Account.encode { Balance := 1000 }) = .ok { Balance := 1000 } :=
  decode_encode_roundtrip { Balance := 1000 } (by decide) (by decide)

/-- C7: order-preserving identifiers — for indices i < j within the
nine-digit range of the identifier format (which covers every account
range the harness can address, the harness itself using ten accounts),
the identifier of i is strictly smaller than the identifier of j under
byte-wise comparison; in particular the two identifiers differ, so the
encoding is injective and order-preserving on the index range used by
the harness. -/
theorem makeAccountID_order_preserving (i j : Nat) (hij : i < j) (hj : j < 10 ^ 9) :
    bytesLt (makeAccountID i) (makeAccountID j) = true
      ∧ makeAccountID i ≠ makeAccountID j := by
  have hi : i < 10 ^ 9 := by omega
  have hleni : (makeAccountID i).length = 9 := makeAccountID_length hi
  have hlenj : (makeAccountID j).length = 9 := makeAccountID_length hj
  have hlt : bytesLt (makeAccountID i) (makeAccountID j) = true := by
    apply bytesLt_of_digitsVal_lt _ _ (by rw [hleni, hlenj])
      (makeAccountID_all_digits i) (makeAccountID_all_digits j)
    rw [digitsVal_makeAccountID, digitsVal_makeAccountID]
    exact hij
  refine ⟨hlt, ?_⟩
  intro heq
  rw [heq, bytesLt_irrefl] at hlt
  exact absurd hlt (by decide)

theorem makeAccountID_order_preserving_witness :
    bytesLt (makeAccountID 0) (makeAccountID 1) = true
      ∧ makeAccountID 0 ≠ makeAccountID 1 :=
  makeAccountID_order_preserving 0 1 (by decide) (by decide)
